import Mathlib

/-!
Verification development for the graphite event-sourcing core.

The model below is a shallow embedding of:
  * `src/hlc.rs`    — the Hybrid Logical Clock (`HLTimestamp`, `State::get_time`,
                      `State::update`);
  * `src/legacy/storage.rs` — the SQLite-backed event store (`EventStorage::play`,
                      `play_from`, `play_internal`, `record`, `record_batch`)
                      and the `Event`/`Action`/`Datum` model plus `EventCreator`.

Machine integers are embedded as `Int` (for Rust `i64`) and `Nat` (for `u16`/`u32`),
with an explicit `% 65536` (resp. bound `< 4294967296`) wherever the source performs
`u16` arithmetic — i.e. release-mode two's-complement wrapping semantics.

The SQLite `events` table is embedded as a list of `Row`s; `INSERT` enforces the
`id BLOB PRIMARY KEY` constraint, a `SELECT ... ORDER BY hlc_seconds, hlc_logical`
is a stable sort of the rows by that key, and the serde-JSON serialization of
`Action` is embedded at the JSON-value level (`Json` below): the encoder mirrors
serde's externally-tagged derive layout — including its rendering of non-finite
`f64` values (NaN, ±∞) as `null` — and the decoder reverses it, failing on any
value not of the expected shape (in particular on such a `null`, as
`serde_json::from_str` does when it expects an `f64`).  `rusqlite`'s typed column reads are embedded by the
`u16`/`u32` range checks in `decodeRow`.  Visitor callbacks (`FnMut(Event) ->
Result<()>`) are embedded as `Event → Except ε Unit`; the replay loop additionally
returns the list of events the visitor was invoked on, in invocation order, so
that "visited exactly once" statements can be expressed.
-/

namespace Graphite

/-- Model of Rust `f64` (the `Datum::Float` payload) at the granularity the
program's behavior depends on: either a finite double — carried by its exact
numeric value `mantissa × 2^exponent`, which serde-JSON's shortest-round-trip
decimal rendering preserves losslessly — or one of the non-finite values
(NaN, +∞, -∞), which `serde_json::to_string` renders as `null` and which
therefore cannot round-trip through the store. -/
inductive F64 where
  | finite (mantissa : Int) (exponent : Int)
  | nan
  | inf
  | negInf
deriving DecidableEq, Repr

/-- `true` iff the value is neither NaN nor an infinity. -/
def F64.isFinite : F64 → Bool
  | F64.finite _ _ => true
  | _ => false

/-- `HLTimestamp` from `src/hlc.rs`: seconds (`i64`) plus logical counter (`u16`). -/
structure HLTimestamp where
  seconds : Int
  logical : Nat
deriving DecidableEq, Repr

/-- The derived `Ord` instance of `HLTimestamp` (fields compared in declaration
order): strict lexicographic comparison, seconds first, logical as tie-break. -/
def hltLt (a b : HLTimestamp) : Prop :=
  a.seconds < b.seconds ∨ (a.seconds = b.seconds ∧ a.logical < b.logical)

/-- Non-strict lexicographic order on `HLTimestamp` ("at-or-after" when flipped). -/
def hltLe (a b : HLTimestamp) : Prop :=
  a.seconds < b.seconds ∨ (a.seconds = b.seconds ∧ a.logical ≤ b.logical)

instance (a b : HLTimestamp) : Decidable (hltLt a b) := by
  unfold hltLt; infer_instance

instance (a b : HLTimestamp) : Decidable (hltLe a b) := by
  unfold hltLe; infer_instance

/-- `State::get_time` from `src/hlc.rs` (lines 124–134), as a function of the
physical reading `now` (the result of `(self.now)()`) and the current state:
if `s.seconds < now` the state becomes `(now, 0)`, otherwise `s.logical += 1`
(`u16` wrapping add); the new state is returned. -/
def get_time (now : Int) (s : HLTimestamp) : HLTimestamp :=
  if s.seconds < now then { seconds := now, logical := 0 }
  else { seconds := s.seconds, logical := (s.logical + 1) % 65536 }

/-- `State::update` from `src/hlc.rs` (lines 138–156), as a function of the
physical reading `now`, the current state `s` and the remote `event` timestamp. -/
def update (now : Int) (s : HLTimestamp) (event : HLTimestamp) : HLTimestamp :=
  if now > event.seconds ∧ now > s.seconds then
    { seconds := now, logical := 0 }
  else if event.seconds > s.seconds then
    { seconds := event.seconds, logical := (event.logical + 1) % 65536 }
  else if s.seconds > event.seconds then
    { seconds := s.seconds, logical := (s.logical + 1) % 65536 }
  else
    { seconds := s.seconds
      logical := ((if event.logical > s.logical then event.logical else s.logical) + 1) % 65536 }

/-- Successive outputs of `get_time` fed with the given list of physical readings,
starting from clock state `s` (the state after a call is the returned timestamp). -/
def runGetTime (nows : List Int) (s : HLTimestamp) : List HLTimestamp :=
  match nows with
  | [] => []
  | n :: ns =>
    let t := get_time n s
    t :: runGetTime ns t

/-- Clock state after `n` successive `get_time` calls on a fresh clock
(`State::new_with` starts at `(0, 0)`) whose physical reading is stalled at `1`. -/
def stateAfter : Nat → HLTimestamp
  | 0 => { seconds := 0, logical := 0 }
  | n + 1 => get_time 1 (stateAfter n)

/-- Modelled from the spec: the `get_time` algorithm as §4.1 words it ("read
physical seconds `p`. If `p > state.seconds`, set `state.seconds = p`,
`state.logical = 0`. Otherwise increment `state.logical`"), with the increment
taken in `u16` arithmetic (modulo 2^16) as the counterexample forces. -/
def specGetTime (p : Int) (st : HLTimestamp) : HLTimestamp :=
  if p > st.seconds then { seconds := p, logical := 0 }
  else { seconds := st.seconds, logical := (st.logical + 1) % 65536 }

/-- Modelled from the spec: the four-branch `update` rule as §4.1 words it, with
branch 4 using `max(local.logical, remote.logical) + 1`, and each logical
increment taken in `u16` arithmetic (modulo 2^16) as the counterexample forces. -/
def specUpdate (p : Int) (st rem : HLTimestamp) : HLTimestamp :=
  if p > rem.seconds ∧ p > st.seconds then { seconds := p, logical := 0 }
  else if rem.seconds > st.seconds then
    { seconds := rem.seconds, logical := (rem.logical + 1) % 65536 }
  else if st.seconds > rem.seconds then
    { seconds := st.seconds, logical := (st.logical + 1) % 65536 }
  else
    { seconds := st.seconds, logical := (max st.logical rem.logical + 1) % 65536 }

/-- `uuid::Uuid` (a 128-bit identifier), abstracted as a natural number.
Equality and storage as a SQLite BLOB are lossless, which is all the source
relies on. -/
structure Uuid where
  val : Nat
deriving DecidableEq, Repr

/-- `Datum` from `src/legacy/storage.rs` (lines 139–147). -/
inductive Datum where
  | String (s : String)
  | Integer (n : Int)
  | Float (x : F64)
  | Boolean (b : Bool)
  | DateTime (n : Int)
  | Entity (u : Uuid)

/-- `Action` from `src/legacy/storage.rs` (lines 149–169); `Transaction` nests
arbitrarily via its ordered list of actions. -/
inductive Action where
  | CreateEntity (id : Uuid)
  | AddFact (subject : Uuid) (predicate : String) (datum : Datum)
  | RemoveFact (subject : Uuid) (predicate : String)
  | DeleteEntity (id : Uuid)
  | Transaction (actions : List Action)

/-- `Event` from `src/legacy/storage.rs` (lines 171–178). -/
structure Event where
  id : Uuid
  hlc : HLTimestamp
  action : Action
  actor : Uuid
  version : Nat

/-- `true` iff the datum carries no non-finite float payload. -/
def Datum.finiteFloats : Datum → Bool
  | Datum.Float x => x.isFinite
  | _ => true

mutual

/-- `true` iff no float payload anywhere in the action (recursively through
nested `Transaction`s) is NaN or infinite. -/
def Action.finiteFloats : Action → Bool
  | Action.CreateEntity _ => true
  | Action.AddFact _ _ d => d.finiteFloats
  | Action.RemoveFact _ _ => true
  | Action.DeleteEntity _ => true
  | Action.Transaction as => Action.finiteFloatsAll as

/-- `finiteFloats` over a list of actions. -/
def Action.finiteFloatsAll : List Action → Bool
  | [] => true
  | a :: as => a.finiteFloats && Action.finiteFloatsAll as

end

/-- `true` iff the event's action carries only finite float payloads — the
events serde-JSON can round-trip (non-finite floats serialize as `null`,
which fails to parse back as `f64`). -/
def Event.finiteFloats (e : Event) : Bool := e.action.finiteFloats

/-- JSON values (the serde-JSON data model): the on-disk `action` column holds
the rendering of such a value; the model works at this value level. -/
inductive Json where
  | null
  | boolean (b : Bool)
  | number (n : Int)
  | double (x : F64)
  | string (s : String)
  | array (items : List Json)
  | object (entries : List (String × Json))

/-- serde serialization of a `Uuid`, abstracted as an injective JSON leaf. -/
def encodeUuid (u : Uuid) : Json := Json.number (Int.ofNat u.val)

/-- serde deserialization of a `Uuid`. -/
def decodeUuid : Json → Option Uuid
  | Json.number n => if n < 0 then none else some { val := n.toNat }
  | _ => none

/-- serde-JSON's rendering of an `f64`: a finite double renders exactly (as its
shortest round-trip decimal); NaN and ±infinity render as `null`. -/
def encodeF64 : F64 → Json
  | F64.finite m e => Json.double (F64.finite m e)
  | _ => Json.null

/-- Derived serde serialization of `Datum` (externally tagged union).  Note the
`Float` payload goes through `encodeF64`: serialization of a non-finite float
succeeds but stores `null`. -/
def encodeDatum : Datum → Json
  | Datum.String s => Json.object [("String", Json.string s)]
  | Datum.Integer n => Json.object [("Integer", Json.number n)]
  | Datum.Float x => Json.object [("Float", encodeF64 x)]
  | Datum.Boolean b => Json.object [("Boolean", Json.boolean b)]
  | Datum.DateTime n => Json.object [("DateTime", Json.number n)]
  | Datum.Entity u => Json.object [("Entity", encodeUuid u)]

/-- Derived serde deserialization of `Datum`: accepts exactly the tagged shapes
with well-typed payloads, failing on any other JSON value.  In particular a
`null` in the `Float` position — serde-JSON's rendering of a non-finite float —
falls through to the failing catch-all, matching `serde_json::from_str`'s
"invalid type: null, expected f64" error. -/
def decodeDatum : Json → Option Datum
  | Json.object [("String", Json.string s)] => some (Datum.String s)
  | Json.object [("Integer", Json.number n)] => some (Datum.Integer n)
  | Json.object [("Float", Json.double x)] => some (Datum.Float x)
  | Json.object [("Boolean", Json.boolean b)] => some (Datum.Boolean b)
  | Json.object [("DateTime", Json.number n)] => some (Datum.DateTime n)
  | Json.object [("Entity", j)] => (decodeUuid j).map Datum.Entity
  | _ => none

mutual

/-- Derived serde serialization of `Action` (externally tagged, struct variants),
recursing through `Transaction`'s list of nested actions. -/
def encodeAction : Action → Json
  | Action.CreateEntity i => Json.object [("CreateEntity", Json.object [("id", encodeUuid i)])]
  | Action.AddFact s p d =>
      Json.object [("AddFact", Json.object
        [("subject", encodeUuid s), ("predicate", Json.string p), ("datum", encodeDatum d)])]
  | Action.RemoveFact s p =>
      Json.object [("RemoveFact", Json.object [("subject", encodeUuid s), ("predicate", Json.string p)])]
  | Action.DeleteEntity i => Json.object [("DeleteEntity", Json.object [("id", encodeUuid i)])]
  | Action.Transaction as =>
      Json.object [("Transaction", Json.object [("actions", Json.array (encodeActions as))])]

/-- Serialization of a list of actions (the `actions` field of `Transaction`). -/
def encodeActions : List Action → List Json
  | [] => []
  | a :: as => encodeAction a :: encodeActions as

end

mutual

/-- Derived serde deserialization of `Action`: accepts exactly the tagged shapes
produced by `encodeAction`, failing on any other JSON value. -/
def decodeAction : Json → Option Action
  | Json.object [("CreateEntity", Json.object [("id", j)])] => (decodeUuid j).map Action.CreateEntity
  | Json.object [("AddFact", Json.object
      [("subject", sj), ("predicate", Json.string p), ("datum", dj)])] =>
      match decodeUuid sj, decodeDatum dj with
      | some s, some d => some (Action.AddFact s p d)
      | _, _ => none
  | Json.object [("RemoveFact", Json.object [("subject", sj), ("predicate", Json.string p)])] =>
      (decodeUuid sj).map fun s => Action.RemoveFact s p
  | Json.object [("DeleteEntity", Json.object [("id", j)])] => (decodeUuid j).map Action.DeleteEntity
  | Json.object [("Transaction", Json.object [("actions", Json.array js)])] =>
      (decodeActions js).map Action.Transaction
  | _ => none

/-- Deserialization of a list of actions; fails if any element fails. -/
def decodeActions : List Json → Option (List Action)
  | [] => some []
  | j :: js =>
      match decodeAction j, decodeActions js with
      | some a, some as => some (a :: as)
      | _, _ => none

end


/-- One row of the SQLite `events` table (schema in `EventStorage::init`,
column order `id, hlc_seconds, hlc_logical, action, actor, version`).  The
`action` column holds the serde-JSON rendering of the event's `Action`; the
logical/version columns hold raw SQLite INTEGERs, range-checked on read. -/
structure Row where
  id : Uuid
  hlc_seconds : Int
  hlc_logical : Nat
  action : Json
  actor : Uuid
  version : Nat

/-- The row written by `EventStorage::record` / `record_batch` for an event:
`(id, hlc.seconds, hlc.logical, serde_json::to_string(action), actor, version)`. -/
def rowOf (e : Event) : Row :=
  { id := e.id, hlc_seconds := e.hlc.seconds, hlc_logical := e.hlc.logical
    action := encodeAction e.action, actor := e.actor, version := e.version }

/-- Range invariants carried by the Rust field types (`hlc.logical : u16`,
`version : u32`); every event constructible in the source satisfies them. -/
def Event.wf (e : Event) : Prop := e.hlc.logical < 65536 ∧ e.version < 4294967296

/-- The row-to-event mapping of `play_internal`'s `query_map` closure
(`src/legacy/storage.rs` lines 62–79): typed column reads (`u16`/`u32` range
checks) plus `serde_json::from_str` of the action column; any failure makes the
row error. -/
def decodeRow (r : Row) : Option Event :=
  if r.hlc_logical < 65536 ∧ r.version < 4294967296 then
    (decodeAction r.action).map fun act =>
      { id := r.id, hlc := { seconds := r.hlc_seconds, logical := r.hlc_logical }
        action := act, actor := r.actor, version := r.version }
  else none


instance (e : Event) : Decidable (Event.wf e) := by unfold Event.wf; infer_instance

/-- Decode a list of rows, failing on the first undecodable row. -/
def decodeRows : List Row → Option (List Event)
  | [] => some []
  | r :: rs =>
      match decodeRow r, decodeRows rs with
      | some e, some es => some (e :: es)
      | _, _ => none

/-- A store all of whose rows decode (every store produced by `record` alone
from well-formed events is such). -/
def StoreWF (st : List Row) : Prop := ∀ r ∈ st, (decodeRow r).isSome

/-- Errors of the embedded store: the `id BLOB PRIMARY KEY` constraint. -/
inductive StoreErr where
  | constraintViolation
deriving DecidableEq, Repr

/-- SQLite `INSERT INTO events ... VALUES (?, ?, ?, ?, ?, ?)`: fails exactly
when the `id BLOB PRIMARY KEY` constraint is violated, else appends the row. -/
def insertRow (st : List Row) (r : Row) : Except StoreErr (List Row) :=
  if st.any fun r0 => r0.id == r.id then Except.error StoreErr.constraintViolation
  else Except.ok (st ++ [r])

/-- `EventStorage::record` (`src/legacy/storage.rs` lines 90–110): serialize the
action (which cannot fail at the JSON-value level) and insert the row;
autocommits. -/
def record (st : List Row) (e : Event) : Except StoreErr (List Row) :=
  insertRow st (rowOf e)

/-- Successive `record` calls, left to right; also the per-element loop body of
`record_batch`, applied to the open transaction's view of the table. -/
def recordAll (st : List Row) (es : List Event) : Except StoreErr (List Row) :=
  match es with
  | [] => Except.ok st
  | e :: rest =>
      match record st e with
      | Except.ok st2 => recordAll st2 rest
      | Except.error err => Except.error err

/-- `EventStorage::record_batch` (`src/legacy/storage.rs` lines 112–136): open a
transaction, insert every event into its view, commit on success; on any error
the transaction is dropped, rolling the view back — the committed table (first
component) is unchanged. -/
def record_batch (st : List Row) (es : List Event) : List Row × Except StoreErr Unit :=
  match recordAll st es with
  | Except.ok tx => (tx, Except.ok ())
  | Except.error err => (st, Except.error err)

/-- Replay errors: a stored row failed to deserialize, or the visitor failed. -/
inductive PlayError (ε : Type) where
  | deserialize
  | visitor (e : ε)
deriving DecidableEq, Repr

/-- The row loop of `EventStorage::play_internal` (`src/legacy/storage.rs` lines
82–87): decode each row in order and hand it to the visitor, stopping at and
propagating the first failure.  The first component lists the events the
visitor was invoked on, in invocation order. -/
def playRows {ε : Type} (rows : List Row) (f : Event → Except ε Unit) :
    List Event × Except (PlayError ε) Unit :=
  match rows with
  | [] => ([], Except.ok ())
  | r :: rs =>
    match decodeRow r with
    | none => ([], Except.error PlayError.deserialize)
    | some e =>
      match f e with
      | Except.error err => ([e], Except.error (PlayError.visitor err))
      | Except.ok _ =>
        let rest := playRows rs f
        (e :: rest.1, rest.2)

/-- The `ORDER BY hlc_seconds, hlc_logical` key as a non-strict relation on rows. -/
def rowLe (a b : Row) : Prop :=
  a.hlc_seconds < b.hlc_seconds ∨ (a.hlc_seconds = b.hlc_seconds ∧ a.hlc_logical ≤ b.hlc_logical)

instance : DecidableRel rowLe := fun a b => by unfold rowLe; infer_instance

instance : IsTotal Row rowLe := ⟨by intro a b; unfold rowLe; omega⟩

instance : IsTrans Row rowLe := ⟨by intro a b c hab hbc; unfold rowLe at *; omega⟩

/-- `SELECT * FROM events ORDER BY hlc_seconds, hlc_logical`: the rows sorted
(stably) by the key; among equal keys SQLite's tie order is unspecified, and any
sort by `rowLe` realises one admissible order. -/
def sortRows (st : List Row) : List Row := List.insertionSort rowLe st

/-- `EventStorage::play` (`src/legacy/storage.rs` lines 39–46). -/
def play {ε : Type} (st : List Row) (f : Event → Except ε Unit) :
    List Event × Except (PlayError ε) Unit :=
  playRows (sortRows st) f

/-- `EventStorage::play_from` (`src/legacy/storage.rs` lines 48–55): note the
`WHERE` clause compares the two key fields independently —
`hlc_seconds >= {} AND hlc_logical >= {}`. -/
def play_from {ε : Type} (st : List Row) (hlc : HLTimestamp) (f : Event → Except ε Unit) :
    List Event × Except (PlayError ε) Unit :=
  playRows (sortRows (st.filter fun r =>
    decide (r.hlc_seconds ≥ hlc.seconds) && decide (r.hlc_logical ≥ hlc.logical))) f

/-- `EventCreator` (`src/legacy/storage.rs` lines 180–201), with the physical
readings and the fresh UUID of `Uuid::new_v4()` passed as parameters. -/
structure EventCreator where
  actor : Uuid
  hlc : HLTimestamp

/-- `EventCreator::new`: start from `State::new()` (state `(0, 0)`) and merge
the supplied last-known timestamp via `update` (`now` is the physical reading
taken during that `update`). -/
def EventCreator.new (actor : Uuid) (now : Int) (hlt : HLTimestamp) : EventCreator :=
  { actor := actor, hlc := update now { seconds := 0, logical := 0 } hlt }

/-- `EventCreator::create`: draw the next timestamp via `get_time` and wrap the
action into an `Event` with a fresh id and `version = 0`. -/
def EventCreator.create (c : EventCreator) (now : Int) (freshId : Uuid) (action : Action) :
    EventCreator × Event :=
  let t := get_time now c.hlc
  ({ c with hlc := t },
   { id := freshId, hlc := t, action := action, actor := c.actor, version := 0 })

/-- A visitor that always succeeds. -/
def okVisitor {ε : Type} : Event → Except ε Unit := fun _ => Except.ok ()

/-- Concrete events for witnesses. -/
def evA : Event :=
  { id := ⟨1⟩, hlc := { seconds := 1, logical := 0 }
    action := Action.CreateEntity ⟨10⟩, actor := ⟨100⟩, version := 0 }

def evB : Event :=
  { id := ⟨2⟩, hlc := { seconds := 2, logical := 0 }
    action := Action.AddFact ⟨10⟩ "name" (Datum.String "x"), actor := ⟨100⟩, version := 1 }

def evC : Event :=
  { id := ⟨3⟩, hlc := { seconds := 6, logical := 0 }
    action := Action.Transaction [Action.CreateEntity ⟨11⟩, Action.DeleteEntity ⟨12⟩]
    actor := ⟨100⟩, version := 0 }

/-- Shares its `id` with `evA`: inserting both violates the primary key. -/
def evDup : Event :=
  { id := ⟨1⟩, hlc := { seconds := 3, logical := 0 }
    action := Action.RemoveFact ⟨10⟩ "name", actor := ⟨100⟩, version := 0 }

/-- A visitor that fails (with error `7`) on events of nonzero version. -/
def failVisitor : Event → Except Nat Unit :=
  fun e => if e.version = 0 then Except.ok () else Except.error 7

/-- An event whose action carries a NaN float payload: serde-JSON serializes
the payload as `null`, so recording succeeds but the stored row cannot be
deserialized on replay. -/
def evNaN : Event :=
  { id := ⟨4⟩, hlc := { seconds := 4, logical := 0 }
    action := Action.AddFact ⟨10⟩ "temp" (Datum.Float F64.nan)
    actor := ⟨100⟩, version := 0 }


/-- One `get_time` call strictly advances the clock state in the lexicographic
order, provided the logical increment does not wrap. -/
theorem get_time_lt (now : Int) (s : HLTimestamp) (h : s.logical + 1 < 65536) :
    hltLt s (get_time now s) := by
  unfold get_time hltLt
  split
  · exact Or.inl (by assumption)
  · exact Or.inr ⟨rfl, by simp; omega⟩

/-- Closed form for the stalled-clock run: after `n + 1` calls the state is
`(1, n % 65536)`. -/
theorem stateAfter_succ_eq (n : Nat) :
    stateAfter (n + 1) = { seconds := 1, logical := n % 65536 } := by
  induction n with
  | zero => rfl
  | succ k ih =>
    show get_time 1 (stateAfter (k + 1)) = _
    rw [ih]
    unfold get_time
    simp

/-- Claim C3 (corrected): `get_time` reads physical seconds `p`; if
`p > state.seconds` it sets the state to `(p, 0)`, otherwise it increments the
logical counter by 1 in `u16` arithmetic (modulo 2^16); it returns the new state.
Feeding the physical-time sequence `[2, 2, 1, 3]` to four successive calls on a
fresh clock yields `(2,0)`, `(2,1)`, `(2,2)`, `(3,0)`. -/
theorem C3_get_time_algorithm :
    (∀ (p : Int) (st : HLTimestamp), get_time p st = specGetTime p st) ∧
    runGetTime [2, 2, 1, 3] { seconds := 0, logical := 0 } =
      [{ seconds := 2, logical := 0 }, { seconds := 2, logical := 1 },
       { seconds := 2, logical := 2 }, { seconds := 3, logical := 0 }] := by
  constructor
  · intro p st
    rfl
  · decide

/-- Claim C3, counterexample to the unamended claim: at the valid clock state
`(5, 65535)` with a stalled physical clock the code wraps the `u16` counter to
`(5, 0)` instead of incrementing it to `(5, 65536)`. -/
theorem C3_cex :
    get_time 5 { seconds := 5, logical := 65535 } = { seconds := 5, logical := 0 } ∧
    ({ seconds := 5, logical := 0 } : HLTimestamp) ≠ { seconds := 5, logical := 65536 } := by
  decide

/-- Claim C2 (corrected): `update` follows the four-branch rule, evaluated in
order — (1) physical `p` ahead of both remote and state: `(p, 0)`; (2) remote
seconds ahead: `(remote.seconds, remote.logical + 1)`; (3) state seconds ahead:
logical increments; (4) equal seconds: logical becomes
`max(state.logical, remote.logical) + 1` — with every logical increment taken in
`u16` arithmetic (modulo 2^16); the updated state is returned.  The spec's
Example 3 holds: at state `(5,50)`, physical time `0`, `update((5,99))` gives
`(5,100)`. -/
theorem C2_update_branches :
    (∀ (p : Int) (st rem : HLTimestamp), update p st rem = specUpdate p st rem) ∧
    update 0 { seconds := 5, logical := 50 } { seconds := 5, logical := 99 } =
      { seconds := 5, logical := 100 } := by
  constructor
  · intro p st rem
    unfold update specUpdate
    have hmax : (if rem.logical > st.logical then rem.logical else st.logical) =
        max st.logical rem.logical := by
      split <;> omega
    rw [hmax]
  · decide

/-- Claim C2, counterexample to the unamended claim: branch 2 at
`remote = (1, 65535)` (state `(0,0)`, physical time `0`) wraps the `u16`
counter, producing `(1, 0)` rather than `(1, remote.logical + 1) = (1, 65536)`. -/
theorem C2_cex :
    update 0 { seconds := 0, logical := 0 } { seconds := 1, logical := 65535 } =
      { seconds := 1, logical := 0 } ∧
    ({ seconds := 1, logical := 0 } : HLTimestamp) ≠ { seconds := 1, logical := 65536 } := by
  decide

/-- Claim C9: `get_time` and `update` are total functions — for every clock
state, physical reading and remote timestamp they return a timestamp (no error
channel, no panic in the embedded wrapping semantics), and the returned logical
counter is always a valid `u16` value, including when the input counters are at
the `u16` maximum. -/
theorem C9_clock_total (now : Int) (s e : HLTimestamp) :
    (get_time now s).logical < 65536 ∧ (update now s e).logical < 65536 := by
  unfold get_time update
  constructor
  · split
    · show (0 : Nat) < 65536
      decide
    · show (s.logical + 1) % 65536 < 65536
      omega
  · split
    · show (0 : Nat) < 65536
      decide
    · split
      · show (e.logical + 1) % 65536 < 65536
        omega
      · split
        · show (s.logical + 1) % 65536 < 65536
          omega
        · show ((if e.logical > s.logical then e.logical else s.logical) + 1) % 65536 < 65536
          split <;> omega

/-- Claim C4 (amended): within one clock, for every physical-time sequence —
including stalling or regressing sequences — successive `get_time` outputs
strictly increase in the `(seconds, logical)` lexicographic order, provided the
`u16` logical counter never overflows along the run (fewer than 2^16 consecutive
calls without physical advance). -/
theorem C4_monotone (nows : List Int) (s0 : HLTimestamp)
    (h : ∀ t ∈ runGetTime nows s0, t.logical + 1 < 65536) :
    List.Chain' hltLt (runGetTime nows s0) := by
  induction nows generalizing s0 with
  | nil => simp [runGetTime]
  | cons n ns ih =>
    have hrun : runGetTime (n :: ns) s0 = get_time n s0 :: runGetTime ns (get_time n s0) := rfl
    rw [hrun] at h ⊢
    rw [List.chain'_cons']
    refine ⟨?_, ih (get_time n s0) ?_⟩
    · intro y hy
      cases ns with
      | nil => simp [runGetTime] at hy
      | cons m ms =>
        have hrun2 : runGetTime (m :: ms) (get_time n s0) =
            get_time m (get_time n s0) :: runGetTime ms (get_time m (get_time n s0)) := rfl
        rw [hrun2] at hy
        simp at hy
        subst hy
        exact get_time_lt m (get_time n s0) (h (get_time n s0) (by simp))
    · intro t ht
      exact h t (List.mem_cons_of_mem _ ht)

/-- Claim C4, witness: the deterministic run `[2, 2, 1, 3]` on a fresh clock
satisfies the no-overflow hypothesis and its outputs strictly increase. -/
theorem C4_monotone_witness :
    (∀ t ∈ runGetTime [2, 2, 1, 3] { seconds := 0, logical := 0 }, t.logical + 1 < 65536) ∧
    List.Chain' hltLt (runGetTime [2, 2, 1, 3] { seconds := 0, logical := 0 }) :=
  ⟨by decide, C4_monotone [2, 2, 1, 3] { seconds := 0, logical := 0 } (by decide)⟩

/-- Claim C4, counterexample to the unamended claim: on a clock whose physical
source is stalled at `1`, the outputs of the 65536th and 65537th successive
`get_time` calls are `(1, 65535)` and `(1, 0)` — the `u16` counter wraps, so the
two successive outputs do not strictly increase. -/
theorem C4_cex :
    stateAfter 65536 = { seconds := 1, logical := 65535 } ∧
    stateAfter 65537 = get_time 1 (stateAfter 65536) ∧
    stateAfter 65537 = { seconds := 1, logical := 0 } ∧
    ¬ hltLt (stateAfter 65536) (stateAfter 65537) := by
  have h1 := stateAfter_succ_eq 65535
  have h2 := stateAfter_succ_eq 65536
  norm_num at h1 h2
  refine ⟨h1, rfl, h2, ?_⟩
  rw [h1, h2]
  decide

theorem decodeUuid_encodeUuid (u : Uuid) : decodeUuid (encodeUuid u) = some u := by
  simp [encodeUuid, decodeUuid]

/-- Round trip of the datum serialization, for finite float payloads (a
non-finite float serializes as `null`, on which decoding fails). -/
theorem decodeDatum_encodeDatum (d : Datum) (h : d.finiteFloats = true) :
    decodeDatum (encodeDatum d) = some d := by
  cases d with
  | Float x =>
    cases x with
    | finite m e => simp [encodeDatum, encodeF64, decodeDatum]
    | nan => simp [Datum.finiteFloats, F64.isFinite] at h
    | inf => simp [Datum.finiteFloats, F64.isFinite] at h
    | negInf => simp [Datum.finiteFloats, F64.isFinite] at h
  | String s => simp [encodeDatum, decodeDatum]
  | Integer n => simp [encodeDatum, decodeDatum]
  | Boolean b => simp [encodeDatum, decodeDatum]
  | DateTime n => simp [encodeDatum, decodeDatum]
  | Entity u => simp [encodeDatum, decodeDatum, decodeUuid_encodeUuid]

mutual

/-- Round trip of the action serialization (full fidelity through the recursive
tagged union), for actions whose float payloads are all finite. -/
theorem decodeAction_encodeAction : (a : Action) → a.finiteFloats = true →
    decodeAction (encodeAction a) = some a
  | Action.CreateEntity i, _ => by simp [encodeAction, decodeAction, decodeUuid_encodeUuid]
  | Action.AddFact s p d, h => by
      have hd : d.finiteFloats = true := by simpa [Action.finiteFloats] using h
      simp [encodeAction, decodeAction, decodeUuid_encodeUuid, decodeDatum_encodeDatum d hd]
  | Action.RemoveFact s p, _ => by simp [encodeAction, decodeAction, decodeUuid_encodeUuid]
  | Action.DeleteEntity i, _ => by simp [encodeAction, decodeAction, decodeUuid_encodeUuid]
  | Action.Transaction as, h => by
      have hl : Action.finiteFloatsAll as = true := by simpa [Action.finiteFloats] using h
      simp [encodeAction, decodeAction, decodeActions_encodeActions as hl]

theorem decodeActions_encodeActions : (as : List Action) → Action.finiteFloatsAll as = true →
    decodeActions (encodeActions as) = some as
  | [], _ => by simp [encodeActions, decodeActions]
  | a :: as, h => by
      have h2 : a.finiteFloats = true ∧ Action.finiteFloatsAll as = true := by
        simpa [Action.finiteFloatsAll, Bool.and_eq_true] using h
      simp [encodeActions, decodeActions, decodeAction_encodeAction a h2.1,
        decodeActions_encodeActions as h2.2]

end

/-- Round trip of a whole row: recording then decoding a well-formed event with
only finite float payloads reproduces it in every field. -/
theorem decodeRow_rowOf (e : Event) (h : Event.wf e) (hf : Event.finiteFloats e = true) :
    decodeRow (rowOf e) = some e := by
  obtain ⟨h1, h2⟩ := h
  unfold decodeRow rowOf
  rw [if_pos ⟨h1, h2⟩]
  simp [decodeAction_encodeAction e.action hf]

/-- Decoding preserves the ordering key. -/
theorem decodeRow_hlc (r : Row) (e : Event) (h : decodeRow r = some e) :
    e.hlc.seconds = r.hlc_seconds ∧ e.hlc.logical = r.hlc_logical := by
  unfold decodeRow at h
  split at h
  · rcases hd : decodeAction r.action with _ | a <;> rw [hd] at h <;> simp at h
    subst h
    exact ⟨rfl, rfl⟩
  · simp at h

theorem rowLe_hlcLe (r r2 : Row) (e e2 : Event) (hr : rowLe r r2)
    (h : decodeRow r = some e) (h2 : decodeRow r2 = some e2) : hltLe e.hlc e2.hlc := by
  obtain ⟨k1, k2⟩ := decodeRow_hlc r e h
  obtain ⟨k3, k4⟩ := decodeRow_hlc r2 e2 h2
  unfold rowLe at hr
  unfold hltLe
  rw [k1, k2, k3, k4]
  exact hr

theorem decodeRows_mem (rows : List Row) (es : List Event) (h : decodeRows rows = some es)
    (e : Event) (he : e ∈ es) : ∃ r ∈ rows, decodeRow r = some e := by
  induction rows generalizing es with
  | nil =>
    unfold decodeRows at h
    injection h with h
    subst h
    cases he
  | cons r rs ih =>
    unfold decodeRows at h
    rcases hr : decodeRow r with _ | e1 <;> rw [hr] at h
    · cases h
    · rcases hrs : decodeRows rs with _ | es1 <;> rw [hrs] at h
      · cases h
      · injection h with h
        subst h
        rcases he with _ | ⟨_, he⟩
        · exact ⟨r, List.mem_cons_self r rs, hr⟩
        · obtain ⟨r2, hr2, hd2⟩ := ih es1 hrs he
          exact ⟨r2, List.mem_cons_of_mem r hr2, hd2⟩

theorem mem_decodeRows (rows : List Row) (es : List Event) (h : decodeRows rows = some es)
    (r : Row) (hr : r ∈ rows) (e : Event) (hre : decodeRow r = some e) : e ∈ es := by
  induction rows generalizing es with
  | nil => cases hr
  | cons r1 rs ih =>
    unfold decodeRows at h
    rcases h1 : decodeRow r1 with _ | e1 <;> rw [h1] at h
    · cases h
    · rcases hrs : decodeRows rs with _ | es1 <;> rw [hrs] at h
      · cases h
      · injection h with h
        subst h
        rcases hr with _ | ⟨_, hr⟩
        · rw [h1] at hre
          injection hre with hre
          subst hre
          exact List.mem_cons_self _ _
        · exact List.mem_cons_of_mem e1 (ih es1 hrs hr)

theorem decodeRows_eq_filterMap (rows : List Row) (es : List Event)
    (h : decodeRows rows = some es) : es = rows.filterMap decodeRow := by
  induction rows generalizing es with
  | nil =>
    unfold decodeRows at h
    injection h with h
    subst h
    rfl
  | cons r rs ih =>
    unfold decodeRows at h
    rcases hr : decodeRow r with _ | e1 <;> rw [hr] at h
    · cases h
    · rcases hrs : decodeRows rs with _ | es1 <;> rw [hrs] at h
      · cases h
      · injection h with h
        subst h
        rw [List.filterMap_cons_some hr]
        rw [← ih es1 hrs]

theorem decodeRows_isSome (rows : List Row) (h : ∀ r ∈ rows, (decodeRow r).isSome) :
    ∃ es, decodeRows rows = some es := by
  induction rows with
  | nil => exact ⟨[], rfl⟩
  | cons r rs ih =>
    obtain ⟨es1, hes1⟩ := ih fun r2 hr2 => h r2 (List.mem_cons_of_mem r hr2)
    have hr := h r (List.mem_cons_self r rs)
    rcases hd : decodeRow r with _ | e
    · rw [hd] at hr
      cases hr
    · refine ⟨e :: es1, ?_⟩
      unfold decodeRows
      rw [hd, hes1]

theorem filterMap_decodeRow_rowOf (es : List Event) (h : ∀ e ∈ es, Event.wf e)
    (hff : ∀ e ∈ es, Event.finiteFloats e = true) :
    (es.map rowOf).filterMap decodeRow = es := by
  induction es with
  | nil => rfl
  | cons e rest ih =>
    have hw := decodeRow_rowOf e (h e (List.mem_cons_self e rest))
      (hff e (List.mem_cons_self e rest))
    simp only [List.map_cons, List.filterMap_cons_some hw]
    rw [ih (fun x hx => h x (List.mem_cons_of_mem e hx))
      (fun x hx => hff x (List.mem_cons_of_mem e hx))]

theorem pairwise_hlc_of_decodeRows (rows : List Row) (es : List Event)
    (h : decodeRows rows = some es) (hp : List.Pairwise rowLe rows) :
    List.Pairwise (fun a b => hltLe a.hlc b.hlc) es := by
  induction rows generalizing es with
  | nil =>
    unfold decodeRows at h
    injection h with h
    subst h
    exact List.Pairwise.nil
  | cons r rs ih =>
    unfold decodeRows at h
    rcases hr : decodeRow r with _ | e1 <;> rw [hr] at h
    · cases h
    · rcases hrs : decodeRows rs with _ | es1 <;> rw [hrs] at h
      · cases h
      · injection h with h
        subst h
        rcases hp with _ | ⟨hhead, htail⟩
        refine List.Pairwise.cons ?_ (ih es1 hrs htail)
        intro e2 he2
        obtain ⟨r2, hr2, hd2⟩ := decodeRows_mem rs es1 hrs e2 he2
        exact rowLe_hlcLe r r2 e1 e2 (hhead r2 hr2) hr hd2

theorem playRows_cons {ε : Type} (r : Row) (rs : List Row) (f : Event → Except ε Unit) :
    playRows (r :: rs) f =
      match decodeRow r with
      | none => ([], Except.error PlayError.deserialize)
      | some e =>
        match f e with
        | Except.error err => ([e], Except.error (PlayError.visitor err))
        | Except.ok _ => (e :: (playRows rs f).1, (playRows rs f).2) := rfl

theorem playRows_ok {ε : Type} (rows : List Row) (es : List Event) (f : Event → Except ε Unit)
    (h : decodeRows rows = some es) (hf : ∀ e ∈ es, f e = Except.ok ()) :
    playRows rows f = (es, Except.ok ()) := by
  induction rows generalizing es with
  | nil =>
    unfold decodeRows at h
    injection h with h
    subst h
    rfl
  | cons r rs ih =>
    unfold decodeRows at h
    rcases hr : decodeRow r with _ | e1 <;> rw [hr] at h
    · cases h
    · rcases hrs : decodeRows rs with _ | es1 <;> rw [hrs] at h
      · cases h
      · injection h with h
        subst h
        rw [playRows_cons]
        simp only [hr, hf e1 (List.mem_cons_self e1 es1),
          ih es1 hrs fun x hx => hf x (List.mem_cons_of_mem e1 hx)]

theorem playRows_append {ε : Type} (pre rest : List Row) (es : List Event)
    (f : Event → Except ε Unit)
    (h : decodeRows pre = some es) (hf : ∀ e ∈ es, f e = Except.ok ()) :
    playRows (pre ++ rest) f = (es ++ (playRows rest f).1, (playRows rest f).2) := by
  induction pre generalizing es with
  | nil =>
    unfold decodeRows at h
    injection h with h
    subst h
    simp
  | cons r rs ih =>
    unfold decodeRows at h
    rcases hr : decodeRow r with _ | e1 <;> rw [hr] at h
    · cases h
    · rcases hrs : decodeRows rs with _ | es1 <;> rw [hrs] at h
      · cases h
      · injection h with h
        subst h
        have hcons : (r :: rs) ++ rest = r :: (rs ++ rest) := rfl
        rw [hcons, playRows_cons]
        simp only [hr, hf e1 (List.mem_cons_self e1 es1),
          ih es1 hrs fun x hx => hf x (List.mem_cons_of_mem e1 hx), List.cons_append]

theorem insertRow_ok (st st2 : List Row) (r : Row) (h : insertRow st r = Except.ok st2) :
    st2 = st ++ [r] := by
  unfold insertRow at h
  split at h
  · cases h
  · injection h with h
    exact h.symm

theorem recordAll_ok (es : List Event) (st st2 : List Row)
    (h : recordAll st es = Except.ok st2) : st2 = st ++ es.map rowOf := by
  induction es generalizing st with
  | nil =>
    unfold recordAll at h
    injection h with h
    subst h
    simp
  | cons e rest ih =>
    unfold recordAll record at h
    rcases hi : insertRow st (rowOf e) with err | stm <;> rw [hi] at h
    · cases h
    · rw [ih stm h, insertRow_ok st stm (rowOf e) hi]
      simp

theorem sortRows_perm (st : List Row) : List.Perm (sortRows st) st :=
  List.perm_insertionSort rowLe st

theorem sortRows_sorted (st : List Row) : List.Pairwise rowLe (sortRows st) :=
  List.sorted_insertionSort rowLe st

/-- Claim C1 (code bug): the store holds the single event `evC`, whose key
`(6, 0)` is lexicographically at-or-after `(5, 3)` and which a full `play`
delivers; yet `play_from((5, 3))` delivers nothing, because the generated SQL
compares the key fields independently (`hlc_logical >= 3` fails for `0`)
instead of lexicographically as the contract requires. -/
theorem C1_play_from_cex :
    hltLe { seconds := 5, logical := 3 } evC.hlc ∧
    (play [rowOf evC] (okVisitor : Event → Except Unit Unit)).1 = [evC] ∧
    (play_from [rowOf evC] { seconds := 5, logical := 3 }
      (okVisitor : Event → Except Unit Unit)).1 = [] := by
  refine ⟨by decide, rfl, rfl⟩

/-- Claim C5: `record_batch` is atomic — if the whole batch succeeds, all `n`
events are appended to the committed store; if any element's insertion fails,
the committed store is unchanged and a subsequent `play` (with any visitor)
sees exactly what it saw before the call. -/
theorem C5_record_batch_atomic (st : List Row) (es : List Event) :
    ((record_batch st es).2 = Except.ok () → (record_batch st es).1 = st ++ es.map rowOf) ∧
    (∀ err, (record_batch st es).2 = Except.error err →
      (record_batch st es).1 = st ∧
      ∀ {ε : Type} (f : Event → Except ε Unit), play (record_batch st es).1 f = play st f) := by
  unfold record_batch
  rcases h : recordAll st es with err | tx <;> simp only [h]
  · constructor
    · intro hok
      cases hok
    · intro err2 _
      exact ⟨trivial, fun f => trivial⟩
  · constructor
    · intro _
      exact recordAll_ok es st tx h
    · intro err2 hbad
      cases hbad

/-- Claim C5, witness: a two-event batch whose second insert violates the
`id` primary key fails, and the (initially empty) store is unchanged. -/
theorem C5_witness :
    (record_batch [] [evA, evDup]).2 = Except.error StoreErr.constraintViolation ∧
    (record_batch [] [evA, evDup]).1 = [] ∧
    play (record_batch [] [evA, evDup]).1 (okVisitor : Event → Except Unit Unit) =
      play [] (okVisitor : Event → Except Unit Unit) :=
  ⟨rfl,
   ((C5_record_batch_atomic [] [evA, evDup]).2 StoreErr.constraintViolation rfl).1,
   ((C5_record_batch_atomic [] [evA, evDup]).2 StoreErr.constraintViolation rfl).2 _⟩

/-- Claim C6, counterexample to the unamended claim: recording `evNaN` — whose
`Datum::Float` payload is NaN — succeeds, because `serde_json::to_string`
renders the non-finite payload as `null`; but a subsequent `play` fails to
deserialize the stored row ("invalid type: null, expected f64") and delivers
nothing, so no event equal to `evNaN` is ever delivered. -/
theorem C6_cex :
    record [] evNaN = Except.ok [rowOf evNaN] ∧
    play [rowOf evNaN] (okVisitor : Event → Except Unit Unit) =
      ([], Except.error PlayError.deserialize) :=
  ⟨rfl, rfl⟩

/-- Claim C6 (corrected): round-trip fidelity for events whose float payloads
are all finite — if `record e` succeeds on a store whose rows all decode, a
subsequent `play` with an always-accepting visitor delivers an event equal to
`e` in every field (`id`, `hlc`, `action`, `actor`, `version`), the recursive
`Action`/`Datum` payload included.  (A non-finite float payload serializes as
`null` and cannot be parsed back — see the counterexample.) -/
theorem C6_round_trip {ε : Type} (st st2 : List Row) (e : Event) (f : Event → Except ε Unit)
    (hwf : Event.wf e) (hff : Event.finiteFloats e = true) (hst : StoreWF st)
    (hrec : record st e = Except.ok st2)
    (hf : ∀ x, f x = Except.ok ()) :
    e ∈ (play st2 f).1 := by
  have hst2 : st2 = st ++ [rowOf e] := by
    unfold record at hrec
    exact insertRow_ok st st2 (rowOf e) hrec
  have hdec : ∀ r ∈ sortRows st2, (decodeRow r).isSome := by
    intro r hr
    have hr2 : r ∈ st2 := (sortRows_perm st2).mem_iff.mp hr
    rw [hst2] at hr2
    rcases List.mem_append.mp hr2 with h1 | h1
    · exact hst r h1
    · rw [List.mem_singleton] at h1
      subst h1
      rw [decodeRow_rowOf e hwf hff]
      rfl
  obtain ⟨es, hes⟩ := decodeRows_isSome (sortRows st2) hdec
  have hplay : play st2 f = (es, Except.ok ()) :=
    playRows_ok (sortRows st2) es f hes fun x _ => hf x
  rw [hplay]
  have hmem : rowOf e ∈ sortRows st2 := by
    rw [(sortRows_perm st2).mem_iff, hst2]
    exact List.mem_append.mpr (Or.inr (List.mem_singleton.mpr rfl))
  exact mem_decodeRows (sortRows st2) es hes (rowOf e) hmem e (decodeRow_rowOf e hwf hff)

/-- Claim C6, witness: recording the transaction-carrying event `evC` into an
empty store and replaying delivers `evC` itself. -/
theorem C6_witness :
    Event.wf evC ∧ Event.finiteFloats evC = true ∧
    evC ∈ (play [rowOf evC] (okVisitor : Event → Except Unit Unit)).1 :=
  ⟨by decide, by decide,
   C6_round_trip [] [rowOf evC] evC okVisitor (by decide) (by decide)
     (fun r hr => absurd hr (List.not_mem_nil r)) rfl (fun x => rfl)⟩

/-- Claim C7, counterexample to the unamended claim: the event `evNaN` (NaN
float payload) is successfully recorded, yet `play` fails to deserialize its
row and the visitor is invoked zero times — not exactly once per stored event,
so the delivered list is not a permutation of the recorded events. -/
theorem C7_cex :
    recordAll [] [evNaN] = Except.ok [rowOf evNaN] ∧
    play [rowOf evNaN] (okVisitor : Event → Except Unit Unit) =
      ([], Except.error PlayError.deserialize) ∧
    ¬ List.Perm (play [rowOf evNaN] (okVisitor : Event → Except Unit Unit)).1 [evNaN] := by
  refine ⟨rfl, rfl, ?_⟩
  have h1 : (play [rowOf evNaN] (okVisitor : Event → Except Unit Unit)).1 = [] := rfl
  rw [h1]
  intro hperm
  cases hperm.symm.eq_nil

/-- Claim C7 (corrected): events recorded in any call order, each carrying only
finite float payloads, are replayed (by `play`, with an always-accepting
visitor) exactly once each — the delivered list is a permutation of the
recorded events — in ascending `(seconds, logical)` order.  (An event with a
non-finite float payload is stored but aborts replay instead of being
visited — see the counterexample.) -/
theorem C7_replay_order {ε : Type} (es : List Event) (st : List Row) (f : Event → Except ε Unit)
    (hwf : ∀ e ∈ es, Event.wf e)
    (hff : ∀ e ∈ es, Event.finiteFloats e = true)
    (hrec : recordAll [] es = Except.ok st)
    (hf : ∀ x, f x = Except.ok ()) :
    (play st f).2 = Except.ok () ∧
    List.Perm (play st f).1 es ∧
    List.Pairwise (fun a b => hltLe a.hlc b.hlc) (play st f).1 := by
  have hst : st = es.map rowOf := by
    have h := recordAll_ok es [] st hrec
    simpa using h
  have hdec : ∀ r ∈ sortRows st, (decodeRow r).isSome := by
    intro r hr
    have hr2 : r ∈ st := (sortRows_perm st).mem_iff.mp hr
    rw [hst] at hr2
    obtain ⟨e, he, rfl⟩ := List.mem_map.mp hr2
    rw [decodeRow_rowOf e (hwf e he) (hff e he)]
    rfl
  obtain ⟨vs, hvs⟩ := decodeRows_isSome (sortRows st) hdec
  have hplay : play st f = (vs, Except.ok ()) :=
    playRows_ok (sortRows st) vs f hvs fun x _ => hf x
  rw [hplay]
  refine ⟨rfl, ?_, ?_⟩
  · have h1 : vs = (sortRows st).filterMap decodeRow := decodeRows_eq_filterMap _ _ hvs
    have h2 : List.Perm ((sortRows st).filterMap decodeRow) (st.filterMap decodeRow) :=
      (sortRows_perm st).filterMap decodeRow
    have h3 : st.filterMap decodeRow = es := by
      rw [hst]
      exact filterMap_decodeRow_rowOf es hwf hff
    rw [h1, ← h3]
    exact h2
  · exact pairwise_hlc_of_decodeRows (sortRows st) vs hvs (sortRows_sorted st)

/-- Claim C7, witness: recording `evB` (key `(2,0)`) before `evA` (key `(1,0)`)
still replays them ascending — once each. -/
theorem C7_witness :
    (∀ e ∈ [evB, evA], Event.wf e) ∧
    (∀ e ∈ [evB, evA], Event.finiteFloats e = true) ∧
    (play [rowOf evB, rowOf evA] (okVisitor : Event → Except Unit Unit)).2 = Except.ok () ∧
    List.Perm (play [rowOf evB, rowOf evA] (okVisitor : Event → Except Unit Unit)).1 [evB, evA] ∧
    List.Pairwise (fun a b => hltLe a.hlc b.hlc)
      (play [rowOf evB, rowOf evA] (okVisitor : Event → Except Unit Unit)).1 :=
  ⟨by decide, by decide,
   C7_replay_order [evB, evA] [rowOf evB, rowOf evA] okVisitor (by decide) (by decide)
     rfl (fun x => rfl)⟩

/-- Claim C8: if, in replay order, the first `k - 1` stored events decode and
are accepted by the visitor, then — whether the `k`-th row fails to deserialize
or the visitor rejects the `k`-th event — `play` stops immediately and
propagates that error: the visitor was invoked exactly once on each of the
first `k - 1` events (plus the `k`-th itself in the visitor-failure case), and
no later event is visited. -/
theorem C8_play_error {ε : Type} (st : List Row) (f : Event → Except ε Unit)
    (pre : List Row) (r : Row) (post : List Row) (es : List Event)
    (hs : sortRows st = pre ++ r :: post)
    (hd : decodeRows pre = some es)
    (hf : ∀ e ∈ es, f e = Except.ok ()) :
    (decodeRow r = none →
      play st f = (es, Except.error PlayError.deserialize)) ∧
    (∀ (e : Event) (err : ε), decodeRow r = some e → f e = Except.error err →
      play st f = (es ++ [e], Except.error (PlayError.visitor err))) := by
  have hp : play st f = playRows (pre ++ r :: post) f := by
    unfold play
    rw [hs]
  constructor
  · intro hnone
    rw [hp, playRows_append pre (r :: post) es f hd hf, playRows_cons]
    simp [hnone]
  · intro e err hsome herr
    rw [hp, playRows_append pre (r :: post) es f hd hf, playRows_cons]
    simp [hsome, herr]

/-- Claim C8, witness: with `evA` (version 0, accepted) sorting before `evB`
(version 1, rejected with error 7), replay visits `evA` then `evB` and stops
with the visitor's error. -/
theorem C8_witness :
    play [rowOf evB, rowOf evA] failVisitor = ([evA] ++ [evB], Except.error (PlayError.visitor 7)) :=
  (C8_play_error [rowOf evB, rowOf evA] failVisitor [rowOf evA] (rowOf evB) [] [evA]
      rfl rfl (fun e he => by
        rw [List.mem_singleton] at he
        subst he
        rfl)).2 evB 7 rfl rfl

/-- Claim C10 (amended): an `EventCreator` built from last-known timestamp `t`
merges `t` into its clock via `update`, so — whatever the physical readings —
the first created event's timestamp is strictly greater than `t` in the
`(seconds, logical)` order, provided the `u16` logical counter does not
overflow (`t.logical + 2 < 2^16`). -/
theorem C10_creator_continues (actor freshId : Uuid) (t : HLTimestamp) (n1 n2 : Int)
    (act : Action) (h : t.logical + 2 < 65536) :
    hltLt t (((EventCreator.new actor n1 t).create n2 freshId act).2.hlc) := by
  unfold EventCreator.new EventCreator.create update get_time hltLt
  simp only []
  split_ifs <;> simp_all <;> omega

/-- Claim C10, witness: a creator restored from `(5, 50)` with stalled physical
time `0` stamps its first event `(5, 52)`, strictly after `(5, 50)`. -/
theorem C10_witness :
    ((50 : Nat) + 2 < 65536) ∧
    hltLt { seconds := 5, logical := 50 }
      (((EventCreator.new ⟨1⟩ 0 { seconds := 5, logical := 50 }).create 0 ⟨2⟩
        (Action.CreateEntity ⟨3⟩)).2.hlc) :=
  ⟨by decide,
   C10_creator_continues ⟨1⟩ ⟨2⟩ { seconds := 5, logical := 50 } 0 0
     (Action.CreateEntity ⟨3⟩) (by decide)⟩

/-- Claim C10, counterexample to the unamended claim: restoring from
`(10, 65534)` with stalled physical time `0` wraps the `u16` counter — the
first created event carries `(10, 0)`, which is **not** after `(10, 65534)`. -/
theorem C10_cex :
    (((EventCreator.new ⟨1⟩ 0 { seconds := 10, logical := 65534 }).create 0 ⟨2⟩
        (Action.CreateEntity ⟨3⟩)).2.hlc = { seconds := 10, logical := 0 }) ∧
    ¬ hltLt { seconds := 10, logical := 65534 } { seconds := 10, logical := 0 } := by
  decide

end Graphite
